import Mathlib

/-!
Shallow embedding of `pyscripts/newton_iv.py`: a Black-Scholes pricing
engine (probability factors, vega, call/put prices) and three implied
volatility solvers (Newton-Raphson, brute-force grid search, bisection).

Modelling conventions:
* Python floats are modelled by real numbers `ℝ`.
* `scipy.stats.norm.pdf` / `norm.cdf` are modelled by the exact standard
  normal density and its cumulative integral.
* Python exceptions (`ZeroDivisionError` from `x / 0`, `ValueError` from
  `math.log` on a non-positive argument or `math.sqrt` on a negative
  argument, `NameError` from reading a never-assigned loop variable)
  are modelled by `Option`: a function returns `none` exactly when the
  Python code raises.
* Loops `for _ in range(maxIter)` are modelled by structural recursion
  on the iteration budget.
-/

open MeasureTheory Real Set Classical

noncomputable section

/-- Time conversion from seconds to years, `tau / 31556952`
(`tauToYears` in the source). -/
def tauToYears (tau : ℝ) : ℝ := tau / 31556952

/-- Standard normal probability density, the model of `norm.pdf`. -/
def normPdf (x : ℝ) : ℝ := Real.exp (-(x ^ 2) / 2) / Real.sqrt (2 * Real.pi)

/-- Standard normal cumulative distribution, the model of `norm.cdf`. -/
def normCdf (x : ℝ) : ℝ := ∫ t in Iic x, normPdf t

/-- Value of the probability factor `d1` computed by `get_prob_factors`. -/
def d1R (spot strike rate sigma tau : ℝ) : ℝ :=
  (Real.log (spot / strike) + (rate + sigma ^ 2 / 2) * tauToYears tau) /
    (sigma * Real.sqrt (tauToYears tau))

/-- Value of the probability factor `d2` computed by `get_prob_factors`. -/
def d2R (spot strike rate sigma tau : ℝ) : ℝ :=
  d1R spot strike rate sigma tau - sigma * Real.sqrt (tauToYears tau)

/-- Derivative of `sigma ↦ d1R spot strike rate sigma tau` (quotient
rule applied to the `d1` formula), used to differentiate the prices. -/
def d1slope (spot strike rate sigma tau : ℝ) : ℝ :=
  (sigma * tauToYears tau * (sigma * Real.sqrt (tauToYears tau)) -
    (Real.log (spot / strike) + (rate + sigma ^ 2 / 2) * tauToYears tau) *
      Real.sqrt (tauToYears tau)) / (sigma * Real.sqrt (tauToYears tau)) ^ 2

/-- Embedding of `get_prob_factors`.  The guards mirror the places where
the Python code raises: `spot / strike` raises `ZeroDivisionError` when
`strike = 0`, `math.log` raises on a non-positive argument, `math.sqrt`
raises on a negative argument, and the division by
`sigma * math.sqrt(tauInYears)` raises `ZeroDivisionError` when that
product is zero. -/
def get_prob_factors (spot strike rate sigma tau : ℝ) : Option (ℝ × ℝ) :=
  if strike = 0 then none
  else if spot / strike ≤ 0 then none
  else if tauToYears tau < 0 then none
  else if sigma * Real.sqrt (tauToYears tau) = 0 then none
  else some (d1R spot strike rate sigma tau, d2R spot strike rate sigma tau)

/-- Value of the vega computed by `get_vega` when it does not raise. -/
def vegaR (spot strike rate sigma tau : ℝ) : ℝ :=
  spot * normPdf (d1R spot strike rate sigma tau) * Real.sqrt (tauToYears tau)

/-- Embedding of `get_vega`. -/
def get_vega (spot strike rate sigma tau : ℝ) : Option ℝ :=
  (get_prob_factors spot strike rate sigma tau).map fun p =>
    spot * normPdf p.1 * Real.sqrt (tauToYears tau)

/-- Value of the call price computed by `get_call_price` when it does not
raise. -/
def callR (spot strike rate sigma tau : ℝ) : ℝ :=
  spot * normCdf (d1R spot strike rate sigma tau) -
    strike * Real.exp (-rate * tauToYears tau) * normCdf (d2R spot strike rate sigma tau)

/-- Embedding of `get_call_price`. -/
def get_call_price (spot strike rate sigma tau : ℝ) : Option ℝ :=
  (get_prob_factors spot strike rate sigma tau).map fun p =>
    spot * normCdf p.1 - strike * Real.exp (-rate * tauToYears tau) * normCdf p.2

/-- Value of the put price computed by `get_put_price` when it does not
raise. -/
def putR (spot strike rate sigma tau : ℝ) : ℝ :=
  strike * Real.exp (-rate * tauToYears tau) * normCdf (-(d2R spot strike rate sigma tau)) -
    spot * normCdf (-(d1R spot strike rate sigma tau))

/-- Embedding of `get_put_price`. -/
def get_put_price (spot strike rate sigma tau : ℝ) : Option ℝ :=
  (get_prob_factors spot strike rate sigma tau).map fun p =>
    strike * Real.exp (-rate * tauToYears tau) * normCdf (-p.2) -
      spot * normCdf (-p.1)

/-- Price selected by the `is_call` flag (the value computed by the
`if is_call:` branches shared by all three solvers). -/
def priceR (spot strike rate tau : ℝ) (is_call : Bool) (sigma : ℝ) : ℝ :=
  if is_call then callR spot strike rate sigma tau else putR spot strike rate sigma tau

/-- Pricing difference `price(sigma) - market` driving every solver. -/
def diffR (spot strike rate tau market : ℝ) (is_call : Bool) (sigma : ℝ) : ℝ :=
  priceR spot strike rate tau is_call sigma - market

/-- Option-valued price selected by the `is_call` flag, used by the
solver embeddings exactly where the Python source has
`if is_call: ... get_call_price ... else: ... get_put_price ...`. -/
def get_price (spot strike rate tau : ℝ) (is_call : Bool) (sigma : ℝ) : Option ℝ :=
  if is_call then get_call_price spot strike rate sigma tau
  else get_put_price spot strike rate sigma tau

/-- Candidate volatility grid `np.arange(0.0001, 4, 0.001)` of
`brute_force_iv`: the 4000 reals `0.0001 + 0.001 * k` for `k < 4000`
(`4000 = ⌈(4 - 0.0001) / 0.001⌉`, so the grid stops strictly below 4). -/
def candidates : List ℝ :=
  (List.range 4000).map fun k : ℕ => 0.0001 + 0.001 * (k : ℝ)

/-- Pairs `(candidate, |price(candidate) - market|)` for one candidate
list, modelling the loop of `brute_force_iv` that fills `diffs[i]` for
the aligned array of candidates; `none` when some pricing call raises. -/
def bfPairs (spot strike rate tau market : ℝ) (is_call : Bool) :
    List ℝ → Option (List (ℝ × ℝ))
  | [] => some []
  | c :: cs =>
    (get_price spot strike rate tau is_call c).bind fun p =>
      (bfPairs spot strike rate tau market is_call cs).map fun rest =>
        (c, |p - market|) :: rest

/-- First pair with minimal second component, modelling
`np.argmin(diffs)` (first index of the minimum) together with the
aligned reads `candidates[best_i]`, `diffs[best_i]`. -/
def minBySnd : ℝ × ℝ → List (ℝ × ℝ) → ℝ × ℝ
  | best, [] => best
  | best, q :: qs => if q.2 < best.2 then minBySnd q qs else minBySnd best qs

/-- Embedding of `brute_force_iv`: price every grid candidate, then
return the candidate attaining the minimal absolute pricing error
together with that error. -/
def brute_force_iv (spot strike rate tau market : ℝ) (is_call : Bool) :
    Option (ℝ × ℝ) :=
  (bfPairs spot strike rate tau market is_call candidates).bind fun pairs =>
    match pairs with
    | [] => none
    | q :: qs => some (minBySnd q qs)

/-- Loop of `newton_raphson_iv`, by recursion on the remaining iteration
budget, carrying the current `sigma`. -/
def newtonLoop (spot strike rate tau market : ℝ) (is_call : Bool) (tol : ℝ) :
    ℕ → ℝ → Option ℝ
  | 0, sigma => some sigma
  | n + 1, sigma =>
    (get_price spot strike rate tau is_call sigma).bind fun price =>
      if |price - market| < tol then some sigma
      else
        (get_vega spot strike rate sigma tau).bind fun v =>
          newtonLoop spot strike rate tau market is_call tol n
            (sigma - (price - market) / max v 0.01)

/-- Embedding of `newton_raphson_iv`. -/
def newton_raphson_iv (spot strike rate tau market : ℝ) (is_call : Bool)
    (guess tol : ℝ) (maxIter : ℕ) : Option ℝ :=
  newtonLoop spot strike rate tau market is_call tol maxIter guess

/-- One Newton-Raphson update as described by the specification:
`sigma - (price sigma - market) / max (vega sigma) 0.01`. -/
def newtonStep (spot strike rate tau market : ℝ) (is_call : Bool) (sigma : ℝ) : ℝ :=
  sigma - diffR spot strike rate tau market is_call sigma /
    max (vegaR spot strike rate sigma tau) 0.01

/-- Newton iterate sequence described by the specification:
`sigma_0 = guess` and `sigma_(k+1) = newtonStep sigma_k`. -/
def newtonSeq (spot strike rate tau market : ℝ) (is_call : Bool) (guess : ℝ) :
    ℕ → ℝ
  | 0 => guess
  | k + 1 => newtonStep spot strike rate tau market is_call
      (newtonSeq spot strike rate tau market is_call guess k)

/-- Loop of `bisection_method_iv`, by recursion on the remaining
iteration budget.  The third state component is the last value assigned
to the Python variable `mid` (`none` before the first assignment, so a
budget of `0` reproduces the `NameError` of `return mid`). -/
def bisectLoop (spot strike rate tau market : ℝ) (is_call : Bool) (tol : ℝ) :
    ℕ → ℝ → ℝ → Option ℝ → Option ℝ
  | 0, _, _, mid? => mid?
  | n + 1, left, right, _ =>
    (get_price spot strike rate tau is_call ((left + right) / 2)).bind fun pm =>
      (get_price spot strike rate tau is_call left).bind fun pl =>
        if |pm - market| < tol then some ((left + right) / 2)
        else if (0 ≤ pm - market) ↔ (0 ≤ pl - market) then
          bisectLoop spot strike rate tau market is_call tol n
            ((left + right) / 2) right (some ((left + right) / 2))
        else
          bisectLoop spot strike rate tau market is_call tol n
            left ((left + right) / 2) (some ((left + right) / 2))

/-- Embedding of `bisection_method_iv`. -/
def bisection_method_iv (spot strike rate tau market : ℝ) (is_call : Bool)
    (left right tol : ℝ) (maxIter : ℕ) : Option ℝ :=
  bisectLoop spot strike rate tau market is_call tol maxIter left right none

/-- One bracket update of the bisection method as described by the
specification: compare the sign of the pricing difference at the
midpoint with its sign at the left endpoint. -/
def bisStep (spot strike rate tau market : ℝ) (is_call : Bool) :
    ℝ × ℝ → ℝ × ℝ :=
  fun lr =>
    let m := (lr.1 + lr.2) / 2
    if (0 ≤ diffR spot strike rate tau market is_call m) ↔
        (0 ≤ diffR spot strike rate tau market is_call lr.1) then
      (m, lr.2)
    else (lr.1, m)

/-- Bracket sequence of the bisection method, starting from the initial
bracket and applying `bisStep` at every iteration. -/
def bisSeq (spot strike rate tau market : ℝ) (is_call : Bool)
    (left right : ℝ) : ℕ → ℝ × ℝ
  | 0 => (left, right)
  | k + 1 => bisStep spot strike rate tau market is_call
      (bisSeq spot strike rate tau market is_call left right k)

/-- Midpoint tested at iteration `k` of the bisection method. -/
def bisMid (spot strike rate tau market : ℝ) (is_call : Bool)
    (left right : ℝ) (k : ℕ) : ℝ :=
  ((bisSeq spot strike rate tau market is_call left right k).1 +
    (bisSeq spot strike rate tau market is_call left right k).2) / 2

lemma tauToYears_pos {tau : ℝ} (h : 0 < tau) : 0 < tauToYears tau :=
  div_pos h (by norm_num)

lemma sqrt_tauToYears_pos {tau : ℝ} (h : 0 < tau) :
    0 < Real.sqrt (tauToYears tau) :=
  Real.sqrt_pos.mpr (tauToYears_pos h)

lemma get_prob_factors_eq {spot strike sigma tau : ℝ} (rate : ℝ)
    (hS : 0 < spot) (hK : 0 < strike) (hτ : 0 < tau) (hσ : sigma ≠ 0) :
    get_prob_factors spot strike rate sigma tau =
      some (d1R spot strike rate sigma tau, d2R spot strike rate sigma tau) := by
  have h1 : strike ≠ 0 := ne_of_gt hK
  have h2 : ¬ spot / strike ≤ 0 := not_le.mpr (div_pos hS hK)
  have h3 : ¬ tauToYears tau < 0 := not_lt.mpr (le_of_lt (tauToYears_pos hτ))
  have h4 : sigma * Real.sqrt (tauToYears tau) ≠ 0 :=
    mul_ne_zero hσ (ne_of_gt (sqrt_tauToYears_pos hτ))
  rw [get_prob_factors, if_neg h1, if_neg h2, if_neg h3, if_neg h4]

lemma get_vega_eq {spot strike sigma tau : ℝ} (rate : ℝ)
    (hS : 0 < spot) (hK : 0 < strike) (hτ : 0 < tau) (hσ : sigma ≠ 0) :
    get_vega spot strike rate sigma tau = some (vegaR spot strike rate sigma tau) := by
  rw [get_vega, get_prob_factors_eq rate hS hK hτ hσ, Option.map_some']
  rfl

lemma get_call_price_eq {spot strike sigma tau : ℝ} (rate : ℝ)
    (hS : 0 < spot) (hK : 0 < strike) (hτ : 0 < tau) (hσ : sigma ≠ 0) :
    get_call_price spot strike rate sigma tau = some (callR spot strike rate sigma tau) := by
  rw [get_call_price, get_prob_factors_eq rate hS hK hτ hσ, Option.map_some']
  rfl

lemma get_put_price_eq {spot strike sigma tau : ℝ} (rate : ℝ)
    (hS : 0 < spot) (hK : 0 < strike) (hτ : 0 < tau) (hσ : sigma ≠ 0) :
    get_put_price spot strike rate sigma tau = some (putR spot strike rate sigma tau) := by
  rw [get_put_price, get_prob_factors_eq rate hS hK hτ hσ, Option.map_some']
  rfl

lemma get_priceR_eq {spot strike sigma tau : ℝ} (rate : ℝ) (is_call : Bool)
    (hS : 0 < spot) (hK : 0 < strike) (hτ : 0 < tau) (hσ : sigma ≠ 0) :
    get_price spot strike rate tau is_call sigma =
      some (priceR spot strike rate tau is_call sigma) := by
  cases is_call with
  | false =>
    rw [get_price, priceR]
    simp only [Bool.false_eq_true, if_false]
    exact get_put_price_eq rate hS hK hτ hσ
  | true =>
    rw [get_price, priceR]
    simp only [if_true]
    exact get_call_price_eq rate hS hK hτ hσ

lemma get_price_sigma_zero (spot strike rate tau : ℝ) (is_call : Bool) :
    get_price spot strike rate tau is_call 0 = none := by
  have h : get_prob_factors spot strike rate 0 tau = none := by
    simp [get_prob_factors, zero_mul, ite_self]
  cases is_call <;> simp [get_price, get_call_price, get_put_price, h]

/-- Claim C10: with an iteration budget of zero, `bisection_method_iv`
never assigns `mid` and fails with an unbound-variable error (modelled
as `none`), while `newton_raphson_iv` returns the initial guess. -/
theorem bisection_zero_iter_fails_newton_returns_guess
    (spot strike rate tau market : ℝ) (is_call : Bool)
    (left right tol guess : ℝ) :
    bisection_method_iv spot strike rate tau market is_call left right tol 0 = none ∧
      newton_raphson_iv spot strike rate tau market is_call guess tol 0 = some guess :=
  ⟨rfl, rfl⟩

/-- Claim C9: with the default bracket endpoint `left = 0` and at least
one iteration, the bisection solver evaluates the pricing function at
`sigma = 0` in its first iteration and fails with a division-by-zero
error (modelled as `none`) instead of returning a volatility. -/
theorem bisection_left_zero_fails
    (spot strike rate tau market : ℝ) (is_call : Bool)
    (right tol : ℝ) (maxIter : ℕ)
    (hS : 0 < spot) (hK : 0 < strike) (hτ : 0 < tau) (hIter : 1 ≤ maxIter) :
    bisection_method_iv spot strike rate tau market is_call 0 right tol maxIter = none := by
  cases maxIter with
  | zero => exact absurd hIter (by norm_num)
  | succ n =>
    rw [bisection_method_iv]
    cases hm : get_price spot strike rate tau is_call (right / 2) with
    | none => simp [bisectLoop, zero_add, hm]
    | some pm => simp [bisectLoop, zero_add, hm, get_price_sigma_zero]

/-- Witness for claim C9 at the concrete input
`spot = strike = 1`, `rate = 0`, `tau = 1`, `market = 0`, `right = 10`,
`tol = 1`, `maxIter = 1`. -/
theorem bisection_left_zero_fails_witness :
    bisection_method_iv 1 1 0 1 0 true 0 10 1 1 = none :=
  bisection_left_zero_fails 1 1 0 1 0 true 10 1 1 one_pos one_pos one_pos le_rfl

/-- Claim C4, counterexample: at `tau = 0` the probability-factor
computation divides by `sigma * sqrt 0 = 0`, so all four pricing
functions raise a division-by-zero error (modelled as `none`) rather
than returning a value, already at `spot = strike = sigma = 1`,
`rate = 0`. -/
theorem pricing_tau_zero_divzero :
    get_prob_factors 1 1 0 1 0 = none ∧ get_vega 1 1 0 1 0 = none ∧
      get_call_price 1 1 0 1 0 = none ∧ get_put_price 1 1 0 1 0 = none := by
  have h : get_prob_factors 1 1 0 1 0 = none := by
    norm_num [get_prob_factors, tauToYears, Real.sqrt_zero]
  exact ⟨h, by rw [get_vega, h]; rfl, by rw [get_call_price, h]; rfl,
    by rw [get_put_price, h]; rfl⟩

/-- Claim C4, amended: the four pricing-engine functions are total over
`sigma > 0` and `tau > 0` (with `spot > 0`, `strike > 0`); at `tau = 0`
they fail with a division-by-zero error instead. -/
theorem pricing_total_on_pos
    (spot strike rate sigma tau : ℝ)
    (hS : 0 < spot) (hK : 0 < strike) (hσ : 0 < sigma) (hτ : 0 < tau) :
    get_prob_factors spot strike rate sigma tau =
        some (d1R spot strike rate sigma tau, d2R spot strike rate sigma tau) ∧
      get_vega spot strike rate sigma tau = some (vegaR spot strike rate sigma tau) ∧
      get_call_price spot strike rate sigma tau = some (callR spot strike rate sigma tau) ∧
      get_put_price spot strike rate sigma tau = some (putR spot strike rate sigma tau) :=
  ⟨get_prob_factors_eq rate hS hK hτ (ne_of_gt hσ),
    get_vega_eq rate hS hK hτ (ne_of_gt hσ),
    get_call_price_eq rate hS hK hτ (ne_of_gt hσ),
    get_put_price_eq rate hS hK hτ (ne_of_gt hσ)⟩

/-- Witness for the amended claim C4 at
`spot = strike = sigma = tau = 1`, `rate = 0`. -/
theorem pricing_total_on_pos_witness :
    get_prob_factors 1 1 0 1 1 = some (d1R 1 1 0 1 1, d2R 1 1 0 1 1) ∧
      get_vega 1 1 0 1 1 = some (vegaR 1 1 0 1 1) ∧
      get_call_price 1 1 0 1 1 = some (callR 1 1 0 1 1) ∧
      get_put_price 1 1 0 1 1 = some (putR 1 1 0 1 1) :=
  pricing_total_on_pos 1 1 0 1 1 one_pos one_pos one_pos one_pos

/-- Claim C3: for positive `spot`, `strike`, `sigma`, `tau` and any
`rate`, `get_prob_factors` returns exactly
`d1 = (ln (spot / strike) + (rate + sigma ^ 2 / 2) * (tau / 31556952)) /
(sigma * sqrt (tau / 31556952))` and `d2 = d1 - sigma * sqrt (tau / 31556952)`,
the year fraction being `tau / 31556952` as computed by `tauToYears`. -/
theorem prob_factors_formula
    (spot strike rate sigma tau : ℝ)
    (hS : 0 < spot) (hK : 0 < strike) (hσ : 0 < sigma) (hτ : 0 < tau) :
    get_prob_factors spot strike rate sigma tau =
      some ((Real.log (spot / strike) + (rate + sigma ^ 2 / 2) * (tau / 31556952)) /
              (sigma * Real.sqrt (tau / 31556952)),
            (Real.log (spot / strike) + (rate + sigma ^ 2 / 2) * (tau / 31556952)) /
              (sigma * Real.sqrt (tau / 31556952)) -
              sigma * Real.sqrt (tau / 31556952)) :=
  get_prob_factors_eq rate hS hK hτ (ne_of_gt hσ)

lemma normPdf_eq_gauss :
    normPdf = fun x => Real.exp (-(1 / 2) * x ^ 2) * (Real.sqrt (2 * Real.pi))⁻¹ :=
  funext fun x => by
    rw [normPdf, show -(x ^ 2) / 2 = -(1 / 2) * x ^ 2 by ring, div_eq_mul_inv]

lemma normPdf_pos (x : ℝ) : 0 < normPdf x :=
  div_pos (Real.exp_pos _) (Real.sqrt_pos.mpr (by positivity))

lemma continuous_normPdf : Continuous normPdf := by
  rw [normPdf_eq_gauss]
  exact (Real.continuous_exp.comp (by continuity)).mul continuous_const

lemma integrable_normPdf : Integrable normPdf := by
  rw [normPdf_eq_gauss]
  exact (integrable_exp_neg_mul_sq (by norm_num)).mul_const _

lemma integral_normPdf : ∫ x, normPdf x = 1 := by
  rw [normPdf_eq_gauss, integral_mul_right, integral_gaussian,
    show Real.pi / (1 / 2) = 2 * Real.pi by ring]
  exact mul_inv_cancel₀ (ne_of_gt (Real.sqrt_pos.mpr (by positivity)))

lemma normPdf_neg (t : ℝ) : normPdf (-t) = normPdf t := by
  rw [normPdf, normPdf, neg_sq]

lemma normCdf_add_neg (x : ℝ) : normCdf x + normCdf (-x) = 1 := by
  have e1 := integral_comp_neg_Iic (-x) normPdf
  rw [neg_neg] at e1
  have e2 : (∫ t in Iic (-x), normPdf (-t)) = ∫ t in Iic (-x), normPdf t := by
    simp only [normPdf_neg]
  have h1 : normCdf (-x) = ∫ t in Ioi x, normPdf t := by
    rw [normCdf, ← e2, e1]
  calc normCdf x + normCdf (-x)
      = (∫ t in Iic x, normPdf t) + ∫ t in Ioi x, normPdf t := by rw [normCdf, h1]
    _ = ∫ t, normPdf t :=
        intervalIntegral.integral_Iic_add_Ioi integrable_normPdf.integrableOn
          integrable_normPdf.integrableOn
    _ = 1 := integral_normPdf

lemma callR_sub_putR (spot strike rate sigma tau : ℝ) :
    callR spot strike rate sigma tau - putR spot strike rate sigma tau =
      spot - strike * Real.exp (-rate * tauToYears tau) := by
  have h1 := normCdf_add_neg (d1R spot strike rate sigma tau)
  have h2 := normCdf_add_neg (d2R spot strike rate sigma tau)
  rw [callR, putR]
  linear_combination spot * h1 - strike * Real.exp (-rate * tauToYears tau) * h2

/-- Claim C2: put-call parity.  For positive `spot`, `strike`, `sigma`,
`tau` both pricing calls succeed and the call price minus the put price
equals `spot - strike * exp (-rate * tauToYears tau)` exactly (hence in
particular within any floating-point tolerance). -/
theorem put_call_parity
    (spot strike rate sigma tau : ℝ)
    (hS : 0 < spot) (hK : 0 < strike) (hσ : 0 < sigma) (hτ : 0 < tau) :
    get_call_price spot strike rate sigma tau = some (callR spot strike rate sigma tau) ∧
      get_put_price spot strike rate sigma tau = some (putR spot strike rate sigma tau) ∧
      callR spot strike rate sigma tau - putR spot strike rate sigma tau =
        spot - strike * Real.exp (-rate * tauToYears tau) :=
  ⟨get_call_price_eq rate hS hK hτ (ne_of_gt hσ),
    get_put_price_eq rate hS hK hτ (ne_of_gt hσ),
    callR_sub_putR spot strike rate sigma tau⟩

/-- Witness for claim C2 at `spot = strike = sigma = tau = 1`, `rate = 0`. -/
theorem put_call_parity_witness :
    get_call_price 1 1 0 1 1 = some (callR 1 1 0 1 1) ∧
      get_put_price 1 1 0 1 1 = some (putR 1 1 0 1 1) ∧
      callR 1 1 0 1 1 - putR 1 1 0 1 1 = 1 - 1 * Real.exp (-0 * tauToYears 1) :=
  put_call_parity 1 1 0 1 1 one_pos one_pos one_pos one_pos

lemma minBySnd_eq_or_mem (b : ℝ × ℝ) (l : List (ℝ × ℝ)) :
    minBySnd b l = b ∨ minBySnd b l ∈ l := by
  induction l generalizing b with
  | nil => exact Or.inl rfl
  | cons q qs ih =>
    rw [minBySnd]
    split
    · rcases ih q with h | h
      · exact Or.inr (by rw [h]; exact List.mem_cons_self q qs)
      · exact Or.inr (List.mem_cons_of_mem q h)
    · rcases ih b with h | h
      · exact Or.inl h
      · exact Or.inr (List.mem_cons_of_mem q h)

lemma minBySnd_le_start (b : ℝ × ℝ) (l : List (ℝ × ℝ)) :
    (minBySnd b l).2 ≤ b.2 := by
  induction l generalizing b with
  | nil => exact le_rfl
  | cons q qs ih =>
    rw [minBySnd]
    split
    · exact (ih q).trans (le_of_lt (by assumption))
    · exact ih b

lemma minBySnd_le_mem (b : ℝ × ℝ) (l : List (ℝ × ℝ)) :
    ∀ q ∈ l, (minBySnd b l).2 ≤ q.2 := by
  induction l generalizing b with
  | nil => intro q hq; exact absurd hq (List.not_mem_nil q)
  | cons q qs ih =>
    intro p hp
    rw [minBySnd]
    rcases List.mem_cons.mp hp with rfl | hp
    · split
      · exact minBySnd_le_start p qs
      · exact (minBySnd_le_start b qs).trans (not_lt.mp (by assumption))
    · split
      · exact ih q p hp
      · exact ih b p hp

lemma bfPairs_eq {spot strike rate tau : ℝ} (market : ℝ) {is_call : Bool}
    (l : List ℝ)
    (hdef : ∀ c ∈ l, get_price spot strike rate tau is_call c =
      some (priceR spot strike rate tau is_call c)) :
    bfPairs spot strike rate tau market is_call l =
      some (l.map fun c => (c, |priceR spot strike rate tau is_call c - market|)) := by
  induction l with
  | nil => rfl
  | cons c cs ih =>
    rw [bfPairs, hdef c (List.mem_cons_self c cs),
      ih fun x hx => hdef x (List.mem_cons_of_mem c hx)]
    rfl

lemma candidates_pos : ∀ c ∈ candidates, 0 < c := by
  intro c hc
  rw [candidates] at hc
  obtain ⟨k, -, rfl⟩ := List.mem_map.mp hc
  have hk : (0 : ℝ) ≤ 0.001 * (k : ℝ) :=
    mul_nonneg (by norm_num) (Nat.cast_nonneg k)
  have h0 : (0 : ℝ) < 0.0001 := by norm_num
  linarith

lemma candidates_length : candidates.length = 4000 := by
  simp [candidates]

/-- Claim C5: the brute-force solver prices every point of the fixed
grid `0.0001, 0.0011, ..., 3.9991` and returns a pair `(c, e)` where
`c` is a grid point whose absolute pricing error is minimal over the
whole grid and `e` is exactly that (nonnegative) error; it always
returns such a pair for positive inputs, with no convergence failure. -/
theorem brute_force_spec
    (spot strike rate tau market : ℝ) (is_call : Bool)
    (hS : 0 < spot) (hK : 0 < strike) (hτ : 0 < tau) :
    ∃ c e, brute_force_iv spot strike rate tau market is_call = some (c, e) ∧
      c ∈ candidates ∧
      e = |priceR spot strike rate tau is_call c - market| ∧ 0 ≤ e ∧
      ∀ c' ∈ candidates,
        e ≤ |priceR spot strike rate tau is_call c' - market| := by
  have hdef : ∀ c ∈ candidates, get_price spot strike rate tau is_call c =
      some (priceR spot strike rate tau is_call c) :=
    fun c hc => get_priceR_eq rate is_call hS hK hτ (ne_of_gt (candidates_pos c hc))
  have hb := bfPairs_eq market candidates hdef
  rw [brute_force_iv, hb, Option.some_bind]
  cases hc : candidates.map
      (fun c => (c, |priceR spot strike rate tau is_call c - market|)) with
  | nil =>
    have : candidates.length = 0 := by
      rw [← List.length_map candidates
        (fun c => (c, |priceR spot strike rate tau is_call c - market|)), hc]
      rfl
    rw [candidates_length] at this
    exact absurd this (by norm_num)
  | cons q qs =>
    have hmem : minBySnd q qs ∈ candidates.map
        (fun c => (c, |priceR spot strike rate tau is_call c - market|)) := by
      rw [hc]
      rcases minBySnd_eq_or_mem q qs with h | h
      · rw [h]; exact List.mem_cons_self q qs
      · exact List.mem_cons_of_mem q h
    obtain ⟨c, hcand, hgc⟩ := List.mem_map.mp hmem
    refine ⟨c, |priceR spot strike rate tau is_call c - market|, ?_, hcand, rfl,
      abs_nonneg _, ?_⟩
    · exact congrArg some hgc.symm
    · intro c' hc'
      have hmem' : (c', |priceR spot strike rate tau is_call c' - market|) ∈ q :: qs := by
        rw [← hc]
        exact List.mem_map.mpr ⟨c', hc', rfl⟩
      have hle : (minBySnd q qs).2 ≤ |priceR spot strike rate tau is_call c' - market| := by
        rcases List.mem_cons.mp hmem' with h | h
        · rw [← h]
          exact minBySnd_le_start _ qs
        · exact minBySnd_le_mem q qs _ h
      calc |priceR spot strike rate tau is_call c - market|
          = (minBySnd q qs).2 := by rw [← hgc]
        _ ≤ _ := hle

/-- Witness for claim C5 at `spot = strike = tau = 1`, `rate = 0`,
`market = 0`, call pricing. -/
theorem brute_force_spec_witness :
    ∃ c e, brute_force_iv 1 1 0 1 0 true = some (c, e) ∧
      c ∈ candidates ∧
      e = |priceR 1 1 0 1 true c - 0| ∧ 0 ≤ e ∧
      ∀ c' ∈ candidates, e ≤ |priceR 1 1 0 1 true c' - 0| :=
  brute_force_spec 1 1 0 1 0 true one_pos one_pos one_pos

/-- Witness for claim C3 at `spot = strike = sigma = tau = 1`, `rate = 0`. -/
theorem prob_factors_formula_witness :
    get_prob_factors 1 1 0 1 1 =
      some ((Real.log (1 / 1) + (0 + 1 ^ 2 / 2) * (1 / 31556952)) /
              (1 * Real.sqrt (1 / 31556952)),
            (Real.log (1 / 1) + (0 + 1 ^ 2 / 2) * (1 / 31556952)) /
              (1 * Real.sqrt (1 / 31556952)) - 1 * Real.sqrt (1 / 31556952)) :=
  prob_factors_formula 1 1 0 1 1 one_pos one_pos one_pos one_pos

lemma newtonSeq_shift (spot strike rate tau market : ℝ) (is_call : Bool)
    (guess : ℝ) (k : ℕ) :
    newtonSeq spot strike rate tau market is_call
        (newtonStep spot strike rate tau market is_call guess) k =
      newtonSeq spot strike rate tau market is_call guess (k + 1) := by
  induction k with
  | zero => rfl
  | succ k ih => rw [newtonSeq, ih]; rfl

lemma newtonLoop_eq_seq (spot strike rate tau market : ℝ) (is_call : Bool)
    (tol : ℝ) (hS : 0 < spot) (hK : 0 < strike) (hτ : 0 < tau) :
    ∀ (n : ℕ) (g : ℝ),
      (∀ j < n, newtonSeq spot strike rate tau market is_call g j ≠ 0) →
      (∀ k < n,
          |diffR spot strike rate tau market is_call
            (newtonSeq spot strike rate tau market is_call g k)| < tol →
          (∀ j < k, ¬ |diffR spot strike rate tau market is_call
            (newtonSeq spot strike rate tau market is_call g j)| < tol) →
          newtonLoop spot strike rate tau market is_call tol n g =
            some (newtonSeq spot strike rate tau market is_call g k)) ∧
        ((∀ k < n, ¬ |diffR spot strike rate tau market is_call
            (newtonSeq spot strike rate tau market is_call g k)| < tol) →
          newtonLoop spot strike rate tau market is_call tol n g =
            some (newtonSeq spot strike rate tau market is_call g n)) := by
  intro n
  induction n with
  | zero =>
    intro g _
    exact ⟨fun k hk => absurd hk (Nat.not_lt_zero k), fun _ => rfl⟩
  | succ n ih =>
    intro g hdef
    have hg0 : g ≠ 0 := hdef 0 (Nat.succ_pos n)
    have hp : get_price spot strike rate tau is_call g =
        some (priceR spot strike rate tau is_call g) :=
      get_priceR_eq rate is_call hS hK hτ hg0
    by_cases hconv : |priceR spot strike rate tau is_call g - market| < tol
    · constructor
      · intro k hk hck hfirst
        rcases Nat.eq_zero_or_pos k with rfl | hkpos
        · rw [newtonLoop, hp, Option.some_bind, if_pos hconv]; rfl
        · exact absurd hconv (hfirst 0 hkpos)
      · intro hall
        exact absurd hconv (hall 0 (Nat.succ_pos n))
    · have hv : get_vega spot strike rate g tau =
          some (vegaR spot strike rate g tau) :=
        get_vega_eq rate hS hK hτ hg0
      have hunfold : newtonLoop spot strike rate tau market is_call tol (n + 1) g =
          newtonLoop spot strike rate tau market is_call tol n
            (newtonStep spot strike rate tau market is_call g) := by
        rw [newtonLoop, hp, Option.some_bind, if_neg hconv, hv, Option.some_bind]
        rfl
      have hdef' : ∀ j < n, newtonSeq spot strike rate tau market is_call
          (newtonStep spot strike rate tau market is_call g) j ≠ 0 := by
        intro j hj
        rw [newtonSeq_shift]
        exact hdef (j + 1) (Nat.succ_lt_succ hj)
      have ihg := ih (newtonStep spot strike rate tau market is_call g) hdef'
      constructor
      · intro k hk hck hfirst
        rcases Nat.eq_zero_or_pos k with rfl | hkpos
        · exact absurd hck hconv
        · obtain ⟨k', rfl⟩ := Nat.exists_eq_succ_of_ne_zero (Nat.pos_iff_ne_zero.mp hkpos)
          rw [hunfold]
          have h1 := ihg.1 k' (Nat.lt_of_succ_lt_succ hk)
          rw [newtonSeq_shift] at h1
          have h2 := h1 hck ?_
          · rw [h2]
          · intro j hj
            rw [newtonSeq_shift]
            exact hfirst (j + 1) (Nat.succ_lt_succ hj)
      · intro hall
        rw [hunfold]
        have h1 := ihg.2 ?_
        · rw [h1, newtonSeq_shift]
        · intro k hk
          rw [newtonSeq_shift]
          exact hall (k + 1) (Nat.succ_lt_succ hk)

/-- Claim C1: `newton_raphson_iv` follows the iterate sequence
`sigma_0 = guess`, `sigma_(k+1) = sigma_k - (price sigma_k - market) /
max (vega sigma_k) 0.01`; it returns the first iterate (at some
`k < maxIter`) whose absolute pricing difference is below `tol`, and
when no iterate converges it returns the iterate reached after
`maxIter` updates, raising no exception (given positive inputs and that
no iterate hits volatility zero). -/
theorem newton_iv_spec (spot strike rate tau market : ℝ) (is_call : Bool)
    (guess tol : ℝ) (maxIter : ℕ)
    (hS : 0 < spot) (hK : 0 < strike) (hτ : 0 < tau)
    (hσ : ∀ j < maxIter,
      newtonSeq spot strike rate tau market is_call guess j ≠ 0) :
    (∀ k < maxIter,
        |diffR spot strike rate tau market is_call
          (newtonSeq spot strike rate tau market is_call guess k)| < tol →
        (∀ j < k, ¬ |diffR spot strike rate tau market is_call
          (newtonSeq spot strike rate tau market is_call guess j)| < tol) →
        newton_raphson_iv spot strike rate tau market is_call guess tol maxIter =
          some (newtonSeq spot strike rate tau market is_call guess k)) ∧
      ((∀ k < maxIter, ¬ |diffR spot strike rate tau market is_call
          (newtonSeq spot strike rate tau market is_call guess k)| < tol) →
        newton_raphson_iv spot strike rate tau market is_call guess tol maxIter =
          some (newtonSeq spot strike rate tau market is_call guess maxIter)) :=
  newtonLoop_eq_seq spot strike rate tau market is_call tol hS hK hτ maxIter guess hσ

/-- Witness for claim C1 at `spot = strike = tau = 1`, `rate = 0`,
`market = callR 1 1 0 1 1`, `guess = 1`, `tol = 1`, `maxIter = 1` (the
tolerance test succeeds at the very first iterate). -/
theorem newton_iv_spec_witness :
    (∀ k < 1,
        |diffR 1 1 0 1 (callR 1 1 0 1 1) true
          (newtonSeq 1 1 0 1 (callR 1 1 0 1 1) true 1 k)| < 1 →
        (∀ j < k, ¬ |diffR 1 1 0 1 (callR 1 1 0 1 1) true
          (newtonSeq 1 1 0 1 (callR 1 1 0 1 1) true 1 j)| < 1) →
        newton_raphson_iv 1 1 0 1 (callR 1 1 0 1 1) true 1 1 1 =
          some (newtonSeq 1 1 0 1 (callR 1 1 0 1 1) true 1 k)) ∧
      ((∀ k < 1, ¬ |diffR 1 1 0 1 (callR 1 1 0 1 1) true
          (newtonSeq 1 1 0 1 (callR 1 1 0 1 1) true 1 k)| < 1) →
        newton_raphson_iv 1 1 0 1 (callR 1 1 0 1 1) true 1 1 1 =
          some (newtonSeq 1 1 0 1 (callR 1 1 0 1 1) true 1 1)) :=
  newton_iv_spec 1 1 0 1 (callR 1 1 0 1 1) true 1 1 1 one_pos one_pos one_pos
    (fun j hj => by
      rcases Nat.lt_one_iff.mp hj with rfl
      exact one_ne_zero)

lemma bisSeq_shift (spot strike rate tau market : ℝ) (is_call : Bool)
    (left right : ℝ) (k : ℕ) :
    bisSeq spot strike rate tau market is_call
        (bisStep spot strike rate tau market is_call (left, right)).1
        (bisStep spot strike rate tau market is_call (left, right)).2 k =
      bisSeq spot strike rate tau market is_call left right (k + 1) := by
  induction k with
  | zero => rfl
  | succ k ih => rw [bisSeq, ih]; rfl

lemma bisectLoop_eq_seq (spot strike rate tau market : ℝ) (is_call : Bool)
    (tol : ℝ) (hS : 0 < spot) (hK : 0 < strike) (hτ : 0 < tau) :
    ∀ (n : ℕ) (l r : ℝ) (prev : Option ℝ),
      (∀ j < n, (bisSeq spot strike rate tau market is_call l r j).1 ≠ 0 ∧
        bisMid spot strike rate tau market is_call l r j ≠ 0) →
      (∀ k < n,
          |diffR spot strike rate tau market is_call
            (bisMid spot strike rate tau market is_call l r k)| < tol →
          (∀ j < k, ¬ |diffR spot strike rate tau market is_call
            (bisMid spot strike rate tau market is_call l r j)| < tol) →
          bisectLoop spot strike rate tau market is_call tol n l r prev =
            some (bisMid spot strike rate tau market is_call l r k)) ∧
        ((∀ k < n, ¬ |diffR spot strike rate tau market is_call
            (bisMid spot strike rate tau market is_call l r k)| < tol) →
          bisectLoop spot strike rate tau market is_call tol n l r prev =
            if n = 0 then prev
            else some (bisMid spot strike rate tau market is_call l r (n - 1))) := by
  intro n
  induction n with
  | zero =>
    intro l r prev _
    exact ⟨fun k hk => absurd hk (Nat.not_lt_zero k), fun _ => rfl⟩
  | succ n ih =>
    intro l r prev hdef
    have hl0 : l ≠ 0 := (hdef 0 (Nat.succ_pos n)).1
    have hm0 : (l + r) / 2 ≠ 0 := (hdef 0 (Nat.succ_pos n)).2
    have hpm : get_price spot strike rate tau is_call ((l + r) / 2) =
        some (priceR spot strike rate tau is_call ((l + r) / 2)) :=
      get_priceR_eq rate is_call hS hK hτ hm0
    have hpl : get_price spot strike rate tau is_call l =
        some (priceR spot strike rate tau is_call l) :=
      get_priceR_eq rate is_call hS hK hτ hl0
    by_cases hconv : |priceR spot strike rate tau is_call ((l + r) / 2) - market| < tol
    · constructor
      · intro k hk hck hfirst
        rcases Nat.eq_zero_or_pos k with rfl | hkpos
        · rw [bisectLoop, hpm, Option.some_bind, hpl, Option.some_bind, if_pos hconv]
          rfl
        · exact absurd hconv (hfirst 0 hkpos)
      · intro hall
        exact absurd hconv (hall 0 (Nat.succ_pos n))
    · have hloop : bisectLoop spot strike rate tau market is_call tol (n + 1) l r prev =
          bisectLoop spot strike rate tau market is_call tol n
            (bisStep spot strike rate tau market is_call (l, r)).1
            (bisStep spot strike rate tau market is_call (l, r)).2
            (some ((l + r) / 2)) := by
        rw [bisectLoop, hpm, Option.some_bind, hpl, Option.some_bind, if_neg hconv]
        by_cases hsign : (0 ≤ priceR spot strike rate tau is_call ((l + r) / 2) - market) ↔
            (0 ≤ priceR spot strike rate tau is_call l - market)
        · rw [if_pos hsign]
          have hstep : bisStep spot strike rate tau market is_call (l, r) =
              ((l + r) / 2, r) := by
            simp only [bisStep]
            exact if_pos hsign
          rw [hstep]
        · rw [if_neg hsign]
          have hstep : bisStep spot strike rate tau market is_call (l, r) =
              (l, (l + r) / 2) := by
            simp only [bisStep]
            exact if_neg hsign
          rw [hstep]
      have hshift : ∀ j, bisSeq spot strike rate tau market is_call
          (bisStep spot strike rate tau market is_call (l, r)).1
          (bisStep spot strike rate tau market is_call (l, r)).2 j =
          bisSeq spot strike rate tau market is_call l r (j + 1) :=
        bisSeq_shift spot strike rate tau market is_call l r
      have hmshift : ∀ j, bisMid spot strike rate tau market is_call
          (bisStep spot strike rate tau market is_call (l, r)).1
          (bisStep spot strike rate tau market is_call (l, r)).2 j =
          bisMid spot strike rate tau market is_call l r (j + 1) := by
        intro j
        rw [bisMid, bisMid, hshift j]
      have hdef' : ∀ j < n, (bisSeq spot strike rate tau market is_call
          (bisStep spot strike rate tau market is_call (l, r)).1
          (bisStep spot strike rate tau market is_call (l, r)).2 j).1 ≠ 0 ∧
          bisMid spot strike rate tau market is_call
            (bisStep spot strike rate tau market is_call (l, r)).1
            (bisStep spot strike rate tau market is_call (l, r)).2 j ≠ 0 := by
        intro j hj
        rw [hshift j, hmshift j]
        exact hdef (j + 1) (Nat.succ_lt_succ hj)
      have ihg := ih (bisStep spot strike rate tau market is_call (l, r)).1
        (bisStep spot strike rate tau market is_call (l, r)).2
        (some ((l + r) / 2)) hdef'
      constructor
      · intro k hk hck hfirst
        rcases Nat.eq_zero_or_pos k with rfl | hkpos
        · exact absurd hck hconv
        · obtain ⟨k', rfl⟩ := Nat.exists_eq_succ_of_ne_zero (Nat.pos_iff_ne_zero.mp hkpos)
          rw [hloop]
          have h1 := ihg.1 k' (Nat.lt_of_succ_lt_succ hk)
          rw [hmshift k'] at h1
          have h2 := h1 hck ?_
          · rw [h2]
          · intro j hj
            rw [hmshift j]
            exact hfirst (j + 1) (Nat.succ_lt_succ hj)
      · intro hall
        rw [hloop]
        have h1 := ihg.2 ?_
        · rw [h1]
          rcases Nat.eq_zero_or_pos n with rfl | hnpos
          · rfl
          · rw [if_neg (Nat.pos_iff_ne_zero.mp hnpos),
              if_neg (Nat.succ_ne_zero n), hmshift (n - 1),
              Nat.sub_add_cancel hnpos, Nat.succ_sub_one]
        · intro k hk
          rw [hmshift k]
          exact hall (k + 1) (Nat.succ_lt_succ hk)

/-- Claim C6: `bisection_method_iv` follows the bracket sequence that
halves towards the midpoint whose pricing difference shares the sign of
the left endpoint's difference (`bisStep`); it returns the first
midpoint (at some `k < maxIter`) whose absolute pricing difference is
below `tol`, and otherwise the last midpoint computed after `maxIter`
iterations. -/
theorem bisection_iv_spec (spot strike rate tau market : ℝ) (is_call : Bool)
    (left right tol : ℝ) (maxIter : ℕ)
    (hS : 0 < spot) (hK : 0 < strike) (hτ : 0 < tau)
    (hdef : ∀ j < maxIter,
      (bisSeq spot strike rate tau market is_call left right j).1 ≠ 0 ∧
        bisMid spot strike rate tau market is_call left right j ≠ 0) :
    (∀ k < maxIter,
        |diffR spot strike rate tau market is_call
          (bisMid spot strike rate tau market is_call left right k)| < tol →
        (∀ j < k, ¬ |diffR spot strike rate tau market is_call
          (bisMid spot strike rate tau market is_call left right j)| < tol) →
        bisection_method_iv spot strike rate tau market is_call left right tol maxIter =
          some (bisMid spot strike rate tau market is_call left right k)) ∧
      (1 ≤ maxIter →
        (∀ k < maxIter, ¬ |diffR spot strike rate tau market is_call
          (bisMid spot strike rate tau market is_call left right k)| < tol) →
        bisection_method_iv spot strike rate tau market is_call left right tol maxIter =
          some (bisMid spot strike rate tau market is_call left right (maxIter - 1))) := by
  have h := bisectLoop_eq_seq spot strike rate tau market is_call tol hS hK hτ
    maxIter left right none hdef
  refine ⟨h.1, fun hIter hall => ?_⟩
  have h2 := h.2 hall
  rw [bisection_method_iv, h2, if_neg]
  omega

/-- Witness for claim C6 at `spot = strike = tau = 1`, `rate = 0`,
`left = 1`, `right = 3`, `market = callR 1 1 0 2 1` (the price at the
first midpoint), `tol = 1`, `maxIter = 1`. -/
theorem bisection_iv_spec_witness :
    (∀ k < 1,
        |diffR 1 1 0 1 (callR 1 1 0 2 1) true
          (bisMid 1 1 0 1 (callR 1 1 0 2 1) true 1 3 k)| < 1 →
        (∀ j < k, ¬ |diffR 1 1 0 1 (callR 1 1 0 2 1) true
          (bisMid 1 1 0 1 (callR 1 1 0 2 1) true 1 3 j)| < 1) →
        bisection_method_iv 1 1 0 1 (callR 1 1 0 2 1) true 1 3 1 1 =
          some (bisMid 1 1 0 1 (callR 1 1 0 2 1) true 1 3 k)) ∧
      (1 ≤ 1 →
        (∀ k < 1, ¬ |diffR 1 1 0 1 (callR 1 1 0 2 1) true
          (bisMid 1 1 0 1 (callR 1 1 0 2 1) true 1 3 k)| < 1) →
        bisection_method_iv 1 1 0 1 (callR 1 1 0 2 1) true 1 3 1 1 =
          some (bisMid 1 1 0 1 (callR 1 1 0 2 1) true 1 3 (1 - 1))) :=
  bisection_iv_spec 1 1 0 1 (callR 1 1 0 2 1) true 1 3 1 1 one_pos one_pos one_pos
    (fun j hj => by
      rcases Nat.lt_one_iff.mp hj with rfl
      refine ⟨one_ne_zero, ?_⟩
      show (1 + 3 : ℝ) / 2 ≠ 0
      norm_num)

lemma hasDerivAt_normCdf (x : ℝ) : HasDerivAt normCdf (normPdf x) x := by
  have hfun : normCdf = fun u => normCdf 0 + ∫ t in (0 : ℝ)..u, normPdf t := by
    funext u
    rw [← intervalIntegral.integral_Iic_sub_Iic integrable_normPdf.integrableOn
      integrable_normPdf.integrableOn]
    simp only [normCdf]
    ring
  rw [hfun]
  exact (intervalIntegral.integral_hasDerivAt_right
    integrable_normPdf.intervalIntegrable
    (continuous_normPdf.stronglyMeasurableAtFilter _ _)
    continuous_normPdf.continuousAt).const_add (normCdf 0)

lemma hasDerivAt_d1R (spot strike rate tau : ℝ) {σ : ℝ}
    (hτ : 0 < tau) (hσ : σ ≠ 0) :
    HasDerivAt (fun x => d1R spot strike rate x tau)
      (d1slope spot strike rate σ tau) σ := by
  have hs : (0 : ℝ) < Real.sqrt (tauToYears tau) := sqrt_tauToYears_pos hτ
  have hne : σ * Real.sqrt (tauToYears tau) ≠ 0 := mul_ne_zero hσ (ne_of_gt hs)
  have hx2 : HasDerivAt (fun x : ℝ => x ^ 2 / 2) σ σ := by
    have h := (hasDerivAt_pow 2 σ).div_const 2
    norm_num at h
    exact h
  have hnum : HasDerivAt
      (fun x : ℝ => Real.log (spot / strike) + (rate + x ^ 2 / 2) * tauToYears tau)
      (σ * tauToYears tau) σ :=
    ((hx2.const_add rate).mul_const (tauToYears tau)).const_add
      (Real.log (spot / strike))
  have hden : HasDerivAt (fun x : ℝ => x * Real.sqrt (tauToYears tau))
      (Real.sqrt (tauToYears tau)) σ := by
    have h := (hasDerivAt_id σ).mul_const (Real.sqrt (tauToYears tau))
    rw [one_mul] at h
    exact h
  exact hnum.div hden hne

lemma hasDerivAt_d2R (spot strike rate tau : ℝ) {σ : ℝ}
    (hτ : 0 < tau) (hσ : σ ≠ 0) :
    HasDerivAt (fun x => d2R spot strike rate x tau)
      (d1slope spot strike rate σ tau - Real.sqrt (tauToYears tau)) σ := by
  have h1 := hasDerivAt_d1R spot strike rate tau hτ hσ
  have h2 : HasDerivAt (fun x : ℝ => x * Real.sqrt (tauToYears tau))
      (Real.sqrt (tauToYears tau)) σ := by
    have h := (hasDerivAt_id σ).mul_const (Real.sqrt (tauToYears tau))
    rw [one_mul] at h
    exact h
  exact h1.sub h2

lemma normPdf_identity {spot strike sigma tau : ℝ} (rate : ℝ)
    (hS : 0 < spot) (hK : 0 < strike) (hτ : 0 < tau) (hσ : sigma ≠ 0) :
    strike * Real.exp (-rate * tauToYears tau) *
        normPdf (d2R spot strike rate sigma tau) =
      spot * normPdf (d1R spot strike rate sigma tau) := by
  have hs2 : Real.sqrt (tauToYears tau) ^ 2 = tauToYears tau :=
    Real.sq_sqrt (le_of_lt (tauToYears_pos hτ))
  have hne : sigma * Real.sqrt (tauToYears tau) ≠ 0 :=
    mul_ne_zero hσ (ne_of_gt (sqrt_tauToYears_pos hτ))
  have h1 : d1R spot strike rate sigma tau * (sigma * Real.sqrt (tauToYears tau)) =
      Real.log (spot / strike) + (rate + sigma ^ 2 / 2) * tauToYears tau :=
    div_mul_cancel₀ _ hne
  have hdiff : d1R spot strike rate sigma tau ^ 2 -
      d2R spot strike rate sigma tau ^ 2 =
      2 * (Real.log (spot / strike) + rate * tauToYears tau) := by
    rw [d2R]
    linear_combination 2 * h1 - sigma ^ 2 * hs2
  have hspot : spot = strike * Real.exp (Real.log (spot / strike)) := by
    rw [Real.exp_log (div_pos hS hK)]
    field_simp
  have key : Real.exp (-rate * tauToYears tau) *
      Real.exp (-(d2R spot strike rate sigma tau ^ 2) / 2) =
      Real.exp (Real.log (spot / strike)) *
        Real.exp (-(d1R spot strike rate sigma tau ^ 2) / 2) := by
    rw [← Real.exp_add, ← Real.exp_add]
    congr 1
    linarith [hdiff]
  have main : strike * Real.exp (-rate * tauToYears tau) *
      Real.exp (-(d2R spot strike rate sigma tau ^ 2) / 2) =
      spot * Real.exp (-(d1R spot strike rate sigma tau ^ 2) / 2) := by
    linear_combination strike * key -
      Real.exp (-(d1R spot strike rate sigma tau ^ 2) / 2) * hspot
  rw [normPdf, normPdf]
  calc strike * Real.exp (-rate * tauToYears tau) *
        (Real.exp (-(d2R spot strike rate sigma tau ^ 2) / 2) /
          Real.sqrt (2 * Real.pi))
      = strike * Real.exp (-rate * tauToYears tau) *
          Real.exp (-(d2R spot strike rate sigma tau ^ 2) / 2) /
          Real.sqrt (2 * Real.pi) := by ring
    _ = spot * Real.exp (-(d1R spot strike rate sigma tau ^ 2) / 2) /
          Real.sqrt (2 * Real.pi) := by rw [main]
    _ = spot * (Real.exp (-(d1R spot strike rate sigma tau ^ 2) / 2) /
          Real.sqrt (2 * Real.pi)) := by ring

lemma hasDerivAt_callR (spot strike rate tau : ℝ) {σ : ℝ}
    (hS : 0 < spot) (hK : 0 < strike) (hτ : 0 < tau) (hσ : σ ≠ 0) :
    HasDerivAt (fun x => callR spot strike rate x tau)
      (vegaR spot strike rate σ tau) σ := by
  have h1 : HasDerivAt (fun x => normCdf (d1R spot strike rate x tau))
      (normPdf (d1R spot strike rate σ tau) * d1slope spot strike rate σ tau) σ :=
    (hasDerivAt_normCdf (d1R spot strike rate σ tau)).comp σ
      (hasDerivAt_d1R spot strike rate tau hτ hσ)
  have h2 : HasDerivAt (fun x => normCdf (d2R spot strike rate x tau))
      (normPdf (d2R spot strike rate σ tau) *
        (d1slope spot strike rate σ tau - Real.sqrt (tauToYears tau))) σ :=
    (hasDerivAt_normCdf (d2R spot strike rate σ tau)).comp σ
      (hasDerivAt_d2R spot strike rate tau hτ hσ)
  have h := (h1.const_mul spot).sub
    (h2.const_mul (strike * Real.exp (-rate * tauToYears tau)))
  have hval : spot * (normPdf (d1R spot strike rate σ tau) *
        d1slope spot strike rate σ tau) -
      strike * Real.exp (-rate * tauToYears tau) *
        (normPdf (d2R spot strike rate σ tau) *
          (d1slope spot strike rate σ tau - Real.sqrt (tauToYears tau))) =
      vegaR spot strike rate σ tau := by
    have hid := normPdf_identity rate hS hK hτ hσ
    rw [vegaR]
    linear_combination (Real.sqrt (tauToYears tau) -
      d1slope spot strike rate σ tau) * hid
  rw [← hval]
  exact h

lemma vegaR_pos (spot strike rate sigma tau : ℝ) (hS : 0 < spot) (hτ : 0 < tau) :
    0 < vegaR spot strike rate sigma tau :=
  mul_pos (mul_pos hS (normPdf_pos _)) (sqrt_tauToYears_pos hτ)

lemma callR_strictMonoOn (spot strike rate tau : ℝ)
    (hS : 0 < spot) (hK : 0 < strike) (hτ : 0 < tau) :
    StrictMonoOn (fun σ => callR spot strike rate σ tau) (Ioi 0) := by
  apply strictMonoOn_of_deriv_pos (convex_Ioi 0)
  · intro x hx
    exact (hasDerivAt_callR spot strike rate tau hS hK hτ
      (ne_of_gt hx)).continuousAt.continuousWithinAt
  · intro x hx
    rw [interior_Ioi] at hx
    rw [(hasDerivAt_callR spot strike rate tau hS hK hτ (ne_of_gt hx)).deriv]
    exact vegaR_pos spot strike rate x tau hS hτ

lemma putR_eq_callR_sub (spot strike rate sigma tau : ℝ) :
    putR spot strike rate sigma tau = callR spot strike rate sigma tau -
      (spot - strike * Real.exp (-rate * tauToYears tau)) := by
  have h := callR_sub_putR spot strike rate sigma tau
  linarith

lemma putR_strictMonoOn (spot strike rate tau : ℝ)
    (hS : 0 < spot) (hK : 0 < strike) (hτ : 0 < tau) :
    StrictMonoOn (fun σ => putR spot strike rate σ tau) (Ioi 0) := by
  intro a ha b hb hab
  have h := callR_strictMonoOn spot strike rate tau hS hK hτ ha hb hab
  simp only at h ⊢
  rw [putR_eq_callR_sub spot strike rate a tau,
    putR_eq_callR_sub spot strike rate b tau]
  linarith

/-- Claim C7, counterexample: `putPrice` is not non-increasing in
volatility; at `spot = strike = 1`, `rate = 0`, `tau = 31556952` and
`sigma1 = 1 ≤ sigma2 = 2` the put price strictly increases, refuting
`putPrice sigma1 ≥ putPrice sigma2`. -/
theorem put_not_nonincreasing :
    putR 1 1 0 1 31556952 < putR 1 1 0 2 31556952 :=
  putR_strictMonoOn 1 1 0 31556952 one_pos one_pos (by norm_num)
    (mem_Ioi.mpr one_pos) (mem_Ioi.mpr two_pos) one_lt_two

/-- Claim C7, amended: for fixed positive `spot`, `strike`, `tau`, any
`rate`, and `0 < sigma1 ≤ sigma2`, the call price is non-decreasing in
volatility, the put price is also non-decreasing in volatility (not
non-increasing), and vega is nonnegative. -/
theorem call_put_monotone_vega_nonneg
    (spot strike rate tau sigma1 sigma2 : ℝ)
    (hS : 0 < spot) (hK : 0 < strike) (hτ : 0 < tau)
    (hσ1 : 0 < sigma1) (h12 : sigma1 ≤ sigma2) :
    callR spot strike rate sigma1 tau ≤ callR spot strike rate sigma2 tau ∧
      putR spot strike rate sigma1 tau ≤ putR spot strike rate sigma2 tau ∧
      0 ≤ vegaR spot strike rate sigma1 tau := by
  rcases eq_or_lt_of_le h12 with rfl | hlt
  · exact ⟨le_rfl, le_rfl, le_of_lt (vegaR_pos spot strike rate sigma1 tau hS hτ)⟩
  · exact ⟨le_of_lt (callR_strictMonoOn spot strike rate tau hS hK hτ
        (mem_Ioi.mpr hσ1) (mem_Ioi.mpr (hσ1.trans hlt)) hlt),
      le_of_lt (putR_strictMonoOn spot strike rate tau hS hK hτ
        (mem_Ioi.mpr hσ1) (mem_Ioi.mpr (hσ1.trans hlt)) hlt),
      le_of_lt (vegaR_pos spot strike rate sigma1 tau hS hτ)⟩

/-- Witness for the amended claim C7 at `spot = strike = tau = 1`,
`rate = 0`, `sigma1 = 1`, `sigma2 = 2`. -/
theorem call_put_monotone_vega_nonneg_witness :
    callR 1 1 0 1 1 ≤ callR 1 1 0 2 1 ∧
      putR 1 1 0 1 1 ≤ putR 1 1 0 2 1 ∧ 0 ≤ vegaR 1 1 0 1 1 :=
  call_put_monotone_vega_nonneg 1 1 0 1 1 2 one_pos one_pos one_pos one_pos
    one_le_two

lemma continuousAt_priceR (spot strike rate tau : ℝ) (is_call : Bool) {σ : ℝ}
    (hS : 0 < spot) (hK : 0 < strike) (hτ : 0 < tau) (hσ : σ ≠ 0) :
    ContinuousAt (fun x => priceR spot strike rate tau is_call x) σ := by
  cases is_call with
  | true =>
    have h := (hasDerivAt_callR spot strike rate tau hS hK hτ hσ).continuousAt
    have hfun : (fun x => priceR spot strike rate tau true x) =
        fun x => callR spot strike rate x tau := by
      funext x
      rw [priceR, if_pos rfl]
    rw [hfun]
    exact h
  | false =>
    have hfun : (fun x => priceR spot strike rate tau false x) =
        fun x => callR spot strike rate x tau -
          (spot - strike * Real.exp (-rate * tauToYears tau)) := by
      funext x
      rw [priceR, if_neg (by simp), putR_eq_callR_sub]
    rw [hfun]
    exact ((hasDerivAt_callR spot strike rate tau hS hK hτ hσ).continuousAt).sub
      continuousAt_const

lemma continuousAt_diffR (spot strike rate tau market : ℝ) (is_call : Bool)
    {σ : ℝ} (hS : 0 < spot) (hK : 0 < strike) (hτ : 0 < tau) (hσ : σ ≠ 0) :
    ContinuousAt (fun x => diffR spot strike rate tau market is_call x) σ := by
  exact (continuousAt_priceR spot strike rate tau is_call hS hK hτ hσ).sub
    continuousAt_const

lemma bisStep_cases (spot strike rate tau market : ℝ) (is_call : Bool)
    (p : ℝ × ℝ) :
    bisStep spot strike rate tau market is_call p = ((p.1 + p.2) / 2, p.2) ∨
      bisStep spot strike rate tau market is_call p = (p.1, (p.1 + p.2) / 2) := by
  rw [bisStep]
  split
  · exact Or.inl rfl
  · exact Or.inr rfl

lemma bisStep_keeps_sign_change (spot strike rate tau market : ℝ)
    (is_call : Bool) (p : ℝ × ℝ)
    (h : ¬ ((0 ≤ diffR spot strike rate tau market is_call p.1) ↔
        (0 ≤ diffR spot strike rate tau market is_call p.2))) :
    ¬ ((0 ≤ diffR spot strike rate tau market is_call
          (bisStep spot strike rate tau market is_call p).1) ↔
        (0 ≤ diffR spot strike rate tau market is_call
          (bisStep spot strike rate tau market is_call p).2)) := by
  rw [bisStep]
  split
  · rename_i hc
    intro hiff
    exact h (Iff.trans (Iff.symm hc) hiff)
  · rename_i hc
    intro hiff
    exact hc (Iff.symm hiff)

/-- Bracket invariant of the bisection sequence: positivity of the left
endpoint, ordering, and persistence of the sign change. -/
lemma bisSeq_invariant (spot strike rate tau market : ℝ) (is_call : Bool)
    (left right : ℝ) (hl : 0 < left) (hlr : left ≤ right)
    (hbr : ¬ ((0 ≤ diffR spot strike rate tau market is_call left) ↔
        (0 ≤ diffR spot strike rate tau market is_call right))) :
    ∀ k, 0 < (bisSeq spot strike rate tau market is_call left right k).1 ∧
      (bisSeq spot strike rate tau market is_call left right k).1 ≤
        (bisSeq spot strike rate tau market is_call left right k).2 ∧
      ¬ ((0 ≤ diffR spot strike rate tau market is_call
            (bisSeq spot strike rate tau market is_call left right k).1) ↔
          (0 ≤ diffR spot strike rate tau market is_call
            (bisSeq spot strike rate tau market is_call left right k).2)) := by
  intro k
  induction k with
  | zero => exact ⟨hl, hlr, hbr⟩
  | succ k ih =>
    obtain ⟨h1, h2, h3⟩ := ih
    have hsign := bisStep_keeps_sign_change spot strike rate tau market is_call
      (bisSeq spot strike rate tau market is_call left right k) h3
    rw [bisSeq]
    rcases bisStep_cases spot strike rate tau market is_call
        (bisSeq spot strike rate tau market is_call left right k) with hstep | hstep
    · rw [hstep] at hsign ⊢
      exact ⟨by linarith, by linarith, hsign⟩
    · rw [hstep] at hsign ⊢
      exact ⟨by linarith, by linarith, hsign⟩

lemma bisSeq_width_halves (spot strike rate tau market : ℝ) (is_call : Bool)
    (left right : ℝ) (k : ℕ) :
    (bisSeq spot strike rate tau market is_call left right (k + 1)).2 -
        (bisSeq spot strike rate tau market is_call left right (k + 1)).1 =
      ((bisSeq spot strike rate tau market is_call left right k).2 -
        (bisSeq spot strike rate tau market is_call left right k).1) / 2 := by
  rw [bisSeq]
  rcases bisStep_cases spot strike rate tau market is_call
      (bisSeq spot strike rate tau market is_call left right k) with hstep | hstep
  · rw [hstep]
    ring
  · rw [hstep]
    ring

/-- Claim C8, amended: under a correct initial bracket (positive left
endpoint, sign change of the pricing difference), the bracket width
halves at every iteration, so the guaranteed error bound — the bracket
half-width, which always bounds the distance from the tested midpoint
to an exact root lying in the current bracket — is non-increasing.
(The distance from the midpoint to the root itself can increase; see
the counterexample.) -/
theorem bisection_bracket_spec (spot strike rate tau market : ℝ)
    (is_call : Bool) (left right : ℝ)
    (hS : 0 < spot) (hK : 0 < strike) (hτ : 0 < tau)
    (hl : 0 < left) (hlr : left ≤ right)
    (hbr : ¬ ((0 ≤ diffR spot strike rate tau market is_call left) ↔
        (0 ≤ diffR spot strike rate tau market is_call right))) :
    ∀ k,
      (bisSeq spot strike rate tau market is_call left right (k + 1)).2 -
          (bisSeq spot strike rate tau market is_call left right (k + 1)).1 =
        ((bisSeq spot strike rate tau market is_call left right k).2 -
          (bisSeq spot strike rate tau market is_call left right k).1) / 2 ∧
      ((bisSeq spot strike rate tau market is_call left right (k + 1)).2 -
          (bisSeq spot strike rate tau market is_call left right (k + 1)).1) / 2 ≤
        ((bisSeq spot strike rate tau market is_call left right k).2 -
          (bisSeq spot strike rate tau market is_call left right k).1) / 2 ∧
      ∃ c, c ∈ Icc (bisSeq spot strike rate tau market is_call left right k).1
            (bisSeq spot strike rate tau market is_call left right k).2 ∧
        diffR spot strike rate tau market is_call c = 0 ∧
        |bisMid spot strike rate tau market is_call left right k - c| ≤
          ((bisSeq spot strike rate tau market is_call left right k).2 -
            (bisSeq spot strike rate tau market is_call left right k).1) / 2 := by
  intro k
  obtain ⟨h1, h2, h3⟩ := bisSeq_invariant spot strike rate tau market is_call
    left right hl hlr hbr k
  have hwidth := bisSeq_width_halves spot strike rate tau market is_call
    left right k
  refine ⟨hwidth, ?_, ?_⟩
  · rw [hwidth]
    linarith
  · have hcont : ContinuousOn (fun x => diffR spot strike rate tau market is_call x)
        (Icc (bisSeq spot strike rate tau market is_call left right k).1
          (bisSeq spot strike rate tau market is_call left right k).2) :=
      fun x hx => (continuousAt_diffR spot strike rate tau market is_call hS hK hτ
        (ne_of_gt (lt_of_lt_of_le h1 hx.1))).continuousWithinAt
    by_cases hdl : 0 ≤ diffR spot strike rate tau market is_call
        (bisSeq spot strike rate tau market is_call left right k).1
    · have hdr : diffR spot strike rate tau market is_call
          (bisSeq spot strike rate tau market is_call left right k).2 < 0 := by
        by_contra h
        exact h3 ⟨fun _ => not_lt.mp h, fun _ => hdl⟩
      have h0m : (0 : ℝ) ∈ Icc
          (diffR spot strike rate tau market is_call
            (bisSeq spot strike rate tau market is_call left right k).2)
          (diffR spot strike rate tau market is_call
            (bisSeq spot strike rate tau market is_call left right k).1) :=
        ⟨le_of_lt hdr, hdl⟩
      obtain ⟨c, hcmem, hfc⟩ := intermediate_value_Icc' h2 hcont h0m
      refine ⟨c, hcmem, hfc, ?_⟩
      rw [bisMid, abs_le]
      constructor
      · have := hcmem.2
        linarith
      · have := hcmem.1
        linarith
    · have hdl' : diffR spot strike rate tau market is_call
          (bisSeq spot strike rate tau market is_call left right k).1 < 0 :=
        not_le.mp hdl
      have hdr : 0 ≤ diffR spot strike rate tau market is_call
          (bisSeq spot strike rate tau market is_call left right k).2 := by
        by_contra h
        exact h3 ⟨fun h' => absurd h' hdl, fun h' => absurd h' h⟩
      have h0m : (0 : ℝ) ∈ Icc
          (diffR spot strike rate tau market is_call
            (bisSeq spot strike rate tau market is_call left right k).1)
          (diffR spot strike rate tau market is_call
            (bisSeq spot strike rate tau market is_call left right k).2) :=
        ⟨le_of_lt hdl', hdr⟩
      obtain ⟨c, hcmem, hfc⟩ := intermediate_value_Icc h2 hcont h0m
      refine ⟨c, hcmem, hfc, ?_⟩
      rw [bisMid, abs_le]
      constructor
      · have := hcmem.2
        linarith
      · have := hcmem.1
        linarith

lemma callR_lt_of_lt {a b : ℝ} (ha : 0 < a) (hab : a < b) :
    callR 1 1 0 a 31556952 < callR 1 1 0 b 31556952 :=
  callR_strictMonoOn 1 1 0 31556952 one_pos one_pos (by norm_num)
    (mem_Ioi.mpr ha) (mem_Ioi.mpr (ha.trans hab)) hab

lemma diffR_demo (m σ : ℝ) :
    diffR 1 1 0 31556952 m true σ = callR 1 1 0 σ 31556952 - m := by
  rw [diffR, priceR, if_pos rfl]

lemma bracket_demo :
    ¬ ((0 ≤ diffR 1 1 0 31556952 (callR 1 1 0 2 31556952) true 1) ↔
        (0 ≤ diffR 1 1 0 31556952 (callR 1 1 0 2 31556952) true 3)) := by
  have hneg : diffR 1 1 0 31556952 (callR 1 1 0 2 31556952) true 1 < 0 := by
    rw [diffR_demo]
    have := callR_lt_of_lt one_pos one_lt_two
    linarith
  have hpos : 0 ≤ diffR 1 1 0 31556952 (callR 1 1 0 2 31556952) true 3 := by
    rw [diffR_demo]
    have := callR_lt_of_lt two_pos (by norm_num : (2 : ℝ) < 3)
    linarith
  intro h
  exact not_le.mpr hneg (h.mpr hpos)

/-- Witness for the amended claim C8 at `spot = strike = 1`, `rate = 0`,
`tau = 31556952`, `market = callR 1 1 0 2 31556952`, bracket `[1, 3]`,
first iteration. -/
theorem bisection_bracket_spec_witness :
    (bisSeq 1 1 0 31556952 (callR 1 1 0 2 31556952) true 1 3 1).2 -
        (bisSeq 1 1 0 31556952 (callR 1 1 0 2 31556952) true 1 3 1).1 =
      ((bisSeq 1 1 0 31556952 (callR 1 1 0 2 31556952) true 1 3 0).2 -
        (bisSeq 1 1 0 31556952 (callR 1 1 0 2 31556952) true 1 3 0).1) / 2 ∧
      ((bisSeq 1 1 0 31556952 (callR 1 1 0 2 31556952) true 1 3 1).2 -
          (bisSeq 1 1 0 31556952 (callR 1 1 0 2 31556952) true 1 3 1).1) / 2 ≤
        ((bisSeq 1 1 0 31556952 (callR 1 1 0 2 31556952) true 1 3 0).2 -
          (bisSeq 1 1 0 31556952 (callR 1 1 0 2 31556952) true 1 3 0).1) / 2 ∧
      ∃ c, c ∈ Icc (bisSeq 1 1 0 31556952 (callR 1 1 0 2 31556952) true 1 3 0).1
            (bisSeq 1 1 0 31556952 (callR 1 1 0 2 31556952) true 1 3 0).2 ∧
        diffR 1 1 0 31556952 (callR 1 1 0 2 31556952) true c = 0 ∧
        |bisMid 1 1 0 31556952 (callR 1 1 0 2 31556952) true 1 3 0 - c| ≤
          ((bisSeq 1 1 0 31556952 (callR 1 1 0 2 31556952) true 1 3 0).2 -
            (bisSeq 1 1 0 31556952 (callR 1 1 0 2 31556952) true 1 3 0).1) / 2 :=
  bisection_bracket_spec 1 1 0 31556952 (callR 1 1 0 2 31556952) true 1 3
    one_pos one_pos (by norm_num) one_pos (by norm_num) bracket_demo 0

/-- Claim C8, counterexample: a correctly bracketing run whose error
magnitude strictly increases from one iteration to the next.  With
`spot = strike = 1`, `rate = 0`, `tau = 31556952`,
`market = callR 1 1 0 (21/10) 31556952` (so the unique root of the
pricing difference is `sigma = 21/10`), bracket `[1, 3]` and `tol = 0`:
the initial bracket has a sign change, `21/10` is a root, the tolerance
test fails at iteration 0, yet the distance from the tested midpoint to
the root grows from `|2 - 21/10| = 1/10` to `|5/2 - 21/10| = 2/5`. -/
theorem bisection_error_not_monotone :
    ¬ ((0 ≤ diffR 1 1 0 31556952 (callR 1 1 0 (21/10) 31556952) true 1) ↔
        (0 ≤ diffR 1 1 0 31556952 (callR 1 1 0 (21/10) 31556952) true 3)) ∧
      diffR 1 1 0 31556952 (callR 1 1 0 (21/10) 31556952) true (21/10) = 0 ∧
      ¬ |diffR 1 1 0 31556952 (callR 1 1 0 (21/10) 31556952) true
          (bisMid 1 1 0 31556952 (callR 1 1 0 (21/10) 31556952) true 1 3 0)| <
        0 ∧
      |bisMid 1 1 0 31556952 (callR 1 1 0 (21/10) 31556952) true 1 3 0 -
          21/10| <
        |bisMid 1 1 0 31556952 (callR 1 1 0 (21/10) 31556952) true 1 3 1 -
          21/10| := by
  have hneg1 : diffR 1 1 0 31556952 (callR 1 1 0 (21/10) 31556952) true 1 < 0 := by
    rw [diffR_demo]
    have := callR_lt_of_lt one_pos (by norm_num : (1 : ℝ) < 21/10)
    linarith
  have hneg2 : diffR 1 1 0 31556952 (callR 1 1 0 (21/10) 31556952) true 2 < 0 := by
    rw [diffR_demo]
    have := callR_lt_of_lt two_pos (by norm_num : (2 : ℝ) < 21/10)
    linarith
  have hpos3 : 0 ≤ diffR 1 1 0 31556952 (callR 1 1 0 (21/10) 31556952) true 3 := by
    rw [diffR_demo]
    have := callR_lt_of_lt (by norm_num : (0 : ℝ) < 21/10)
      (by norm_num : (21/10 : ℝ) < 3)
    linarith
  have hm0 : bisMid 1 1 0 31556952 (callR 1 1 0 (21/10) 31556952) true 1 3 0 =
      2 := by
    rw [bisMid]
    norm_num [bisSeq]
  have hstep : bisSeq 1 1 0 31556952 (callR 1 1 0 (21/10) 31556952) true 1 3 1 =
      (2, 3) := by
    rw [bisSeq]
    have h0 : bisSeq 1 1 0 31556952 (callR 1 1 0 (21/10) 31556952) true 1 3 0 =
        (1, 3) := rfl
    rw [h0, bisStep]
    have hmid : ((1 : ℝ) + 3) / 2 = 2 := by norm_num
    rw [if_pos]
    · rw [hmid]
    · show (0 ≤ diffR 1 1 0 31556952 (callR 1 1 0 (21/10) 31556952) true
          (((1 : ℝ) + 3) / 2)) ↔
        (0 ≤ diffR 1 1 0 31556952 (callR 1 1 0 (21/10) 31556952) true 1)
      rw [hmid]
      exact iff_of_false (not_le.mpr hneg2) (not_le.mpr hneg1)
  have hm1 : bisMid 1 1 0 31556952 (callR 1 1 0 (21/10) 31556952) true 1 3 1 =
      5/2 := by
    rw [bisMid, hstep]
    norm_num
  refine ⟨?_, ?_, not_lt.mpr (abs_nonneg _), ?_⟩
  · intro h
    exact not_le.mpr hneg1 (h.mpr hpos3)
  · rw [diffR_demo]
    exact sub_self _
  · rw [hm0, hm1]
    rw [show (2 : ℝ) - 21/10 = -(1/10) by norm_num,
      show (5/2 : ℝ) - 21/10 = 2/5 by norm_num, abs_neg,
      abs_of_nonneg (by norm_num : (0 : ℝ) ≤ 1/10),
      abs_of_nonneg (by norm_num : (0 : ℝ) ≤ 2/5)]
    norm_num

end
